import Mathlib

/-!
Shallow embedding of the AddressBook core of src/assistant_bot.py.

Python strings are modeled as lists of characters (ASCII data); a Python
operation that can raise an exception is modeled as a function returning
an Option (none = the call raises) or a dedicated result type.
-/

set_option maxHeartbeats 1000000

namespace AssistantBot

/-- Python strings, modeled as lists of characters. -/
abbrev Str := List Char

/-- ASCII digit test: character code between 48 and 57.
Models str.isdigit / the regex class \d on ASCII data. -/
def isDigitChar (c : Char) : Bool :=
  decide (48 ≤ c.toNat) && decide (c.toNat ≤ 57)

/-- Numeric value of an ASCII digit character (code minus 48). -/
def charVal (c : Char) : Nat := c.toNat - 48

/-- Python str.isdigit: true iff the string is nonempty and all digits. -/
def pyIsdigit (s : Str) : Bool := !s.isEmpty && s.all isDigitChar

/-- Phone.__init__ cleaning step:
value.replace of each of "+", "-", " " by the empty string, i.e. deleting
every occurrence of those three characters. -/
def cleanPhone (raw : Str) : Str :=
  ((raw.filter (fun c => c != '+')).filter (fun c => c != '-')).filter (fun c => c != ' ')

/-- Phone.__init__: raise ValueError (none) unless the cleaned string is all
digits with length 10 or 12; on success the stored value is the cleaned string. -/
def validatePhone (raw : Str) : Option Str :=
  let cleaned := cleanPhone raw
  if !pyIsdigit cleaned || !(cleaned.length == 10 || cleaned.length == 12) then none
  else some cleaned

/-- The invariant satisfied by every phone value that Phone.__init__ stores. -/
def validPhoneValue (v : Str) : Bool :=
  v.all isDigitChar && (v.length == 10 || v.length == 12)

/-- A string containing at least one of the separator characters that
Phone.__init__ strips. -/
def hasSeparator (s : Str) : Bool :=
  s.any (fun c => c == '+' || c == '-' || c == ' ')

/-- Leap-year test of the proleptic Gregorian calendar (datetime's rule). -/
def isLeap (y : Nat) : Bool :=
  y % 4 == 0 && (y % 100 != 0 || y % 400 == 0)

/-- Number of days of month m in year y (datetime's _DAYS_IN_MONTH table). -/
def daysInMonth (y m : Nat) : Nat :=
  if m = 2 then (if isLeap y then 29 else 28)
  else if m = 4 || m = 6 || m = 9 || m = 11 then 30
  else 31

/-- The constructor check of datetime.date: year in 1..9999, month in 1..12,
day between 1 and the length of the month. -/
def validDate (y m d : Nat) : Bool :=
  decide (1 ≤ y) && decide (y ≤ 9999) && decide (1 ≤ m) && decide (m ≤ 12) &&
  decide (1 ≤ d) && decide (d ≤ daysInMonth y m)

/-- A date object of the datetime module (always a valid calendar date when
produced by the embedded operations). -/
structure PyDate where
  year : Nat
  month : Nat
  day : Nat
deriving DecidableEq, Repr

/-- Split a string at every '.' character.  Matching the full strptime
pattern day '.' month '.' year, where the three sub-patterns match only
digit characters, is equivalent to: the string splits at its dots into
exactly three tokens and each token fully matches its sub-pattern. -/
def splitDots : Str → List Str
  | [] => [[]]
  | c :: rest =>
    match splitDots rest with
    | [] => [[]]
    | t :: ts => if c = '.' then [] :: t :: ts else (c :: t) :: ts

/-- Decimal value of a digit string (leading zeros allowed). -/
def digitsVal (s : Str) : Nat :=
  s.foldl (fun a c => a * 10 + charVal c) 0

/-- Day pattern of strptime %d, the regex 3[01] | [12]\d | 0[1-9] | [1-9],
written over ASCII codes: 48 = '0', 49 = '1', 50 = '2', 51 = '3', 57 = '9'. -/
def reDay (s : Str) : Bool :=
  match s with
  | [a, b] =>
      (decide (a.toNat = 51) && (decide (b.toNat = 48) || decide (b.toNat = 49)))
   || ((decide (a.toNat = 49) || decide (a.toNat = 50)) && isDigitChar b)
   || (decide (a.toNat = 48) && decide (49 ≤ b.toNat) && decide (b.toNat ≤ 57))
  | [a] => decide (49 ≤ a.toNat) && decide (a.toNat ≤ 57)
  | _ => false

/-- Month pattern of strptime %m, the regex 1[0-2] | 0[1-9] | [1-9],
written over ASCII codes. -/
def reMonth (s : Str) : Bool :=
  match s with
  | [a, b] =>
      (decide (a.toNat = 49) && (decide (b.toNat = 48) || decide (b.toNat = 49) || decide (b.toNat = 50)))
   || (decide (a.toNat = 48) && decide (49 ≤ b.toNat) && decide (b.toNat ≤ 57))
  | [a] => decide (49 ≤ a.toNat) && decide (a.toNat ≤ 57)
  | _ => false

/-- Year pattern of strptime %Y: exactly four digit characters. -/
def reYear (s : Str) : Bool :=
  match s with
  | [a, b, c, d] => isDigitChar a && isDigitChar b && isDigitChar c && isDigitChar d
  | _ => false

/-- datetime.strptime(raw, "%d.%m.%Y") followed by .date(): parse the three
tokens by the strptime regexes, then build the date (whose constructor
re-checks the ranges and the day-in-month bound); none models ValueError. -/
def strptimeDMY (raw : Str) : Option PyDate :=
  match splitDots raw with
  | [ds, ms, ys] =>
    if reDay ds && reMonth ms && reYear ys then
      if validDate (digitsVal ys) (digitsVal ms) (digitsVal ds) then
        some ⟨digitsVal ys, digitsVal ms, digitsVal ds⟩
      else none
    else none
  | _ => none

/-- Birthday.__init__: validate via strptime and store the raw string
verbatim; none models the re-raised ValueError. -/
def validateBirthday (raw : Str) : Option Str :=
  (strptimeDMY raw).map (fun _ => raw)

/-- Day or month token as the spec words describe it: one or two digits
whose value lies between 1 and hi. -/
def numToken (hi : Nat) (s : Str) : Bool :=
  decide (1 ≤ s.length) && decide (s.length ≤ 2) && s.all isDigitChar &&
  decide (1 ≤ digitsVal s) && decide (digitsVal s ≤ hi)

/-- Year token as the spec words describe it: exactly four digits. -/
def yearToken (s : Str) : Bool :=
  decide (s.length = 4) && s.all isDigitChar

/-- Acceptance predicate written from the claim as stated: the exact literal
format DD.MM.YYYY, i.e. two-digit day, two-digit month, four-digit year,
forming an existing calendar date. -/
def specPaddedDMY (raw : Str) : Bool :=
  match splitDots raw with
  | [ds, ms, ys] =>
      decide (ds.length = 2) && decide (ms.length = 2) && decide (ys.length = 4) &&
      ds.all isDigitChar && ms.all isDigitChar && ys.all isDigitChar &&
      validDate (digitsVal ys) (digitsVal ms) (digitsVal ds)
  | _ => false

/-- Acceptance predicate written from the amended claim: day.month.year with
a 1-2 digit day valued 1-31, a 1-2 digit month valued 1-12, an exactly
4-digit year, together forming an existing calendar date. -/
def specLenientDMY (raw : Str) : Bool :=
  match splitDots raw with
  | [ds, ms, ys] =>
      numToken 31 ds && numToken 12 ms && yearToken ys &&
      validDate (digitsVal ys) (digitsVal ms) (digitsVal ds)
  | _ => false

/-- One contact of the address book: the mutable state of a Record object.
Phones hold the canonical values stored inside the Phone objects;
birthday holds the verbatim string stored inside the Birthday object. -/
structure Record where
  name : Str
  phones : List Str
  email : Str
  birthday : Option Str
deriving DecidableEq, Repr

/-- Record.__init__(name, phone, email): an empty phone list, extended by
add_phone when a (truthy, i.e. nonempty) phone argument is given; none
models the ValueError propagated out of Phone.__init__. -/
def mkRecord (name : Str) (phone : Option Str) (email : Str) : Option Record :=
  match phone with
  | none => some ⟨name, [], email, none⟩
  | some p =>
    if p.isEmpty then some ⟨name, [], email, none⟩
    else
      match validatePhone p with
      | some c => some ⟨name, [c], email, none⟩
      | none => none

/-- Record.add_phone: validate and append. -/
def add_phone (r : Record) (raw : Str) : Option Record :=
  (validatePhone raw).map (fun c => { r with phones := r.phones ++ [c] })

/-- Record.remove_phone: keep the phones whose value differs from the argument. -/
def remove_phone (r : Record) (v : Str) : Record :=
  { r with phones := r.phones.filter (fun p => p != v) }

/-- Record.find_phone: first phone whose value equals the argument. -/
def find_phone (r : Record) (v : Str) : Option Str :=
  r.phones.find? (fun p => p == v)

/-- Outcome of Record.edit_phone: the new phone list on success, or which
ValueError was raised. -/
inductive PhoneEditResult where
  | updated (phones : List Str)
  | invalidNew
  | oldNotFound
deriving DecidableEq, Repr

/-- The loop of Record.edit_phone: walk the phone list; at the first phone
equal to old, construct Phone(new) (which may raise: invalidNew) and
replace the value in place; falling off the end raises oldNotFound. -/
def editPhoneList (old new : Str) : List Str → PhoneEditResult
  | [] => .oldNotFound
  | p :: rest =>
    if p == old then
      match validatePhone new with
      | some canon => .updated (canon :: rest)
      | none => .invalidNew
    else
      match editPhoneList old new rest with
      | .updated ps => .updated (p :: ps)
      | r => r

/-- Record.edit_phone on a record. -/
def edit_phone (r : Record) (old new : Str) : PhoneEditResult :=
  editPhoneList old new r.phones

/-- The state of the Record object after an edit_phone call: the phones are
mutated only on success; when the call raises, the object is untouched. -/
def recordAfterEdit (r : Record) (old new : Str) : Record :=
  match edit_phone r old new with
  | .updated ps => { r with phones := ps }
  | _ => r

/-- Record.add_birthday: validate and overwrite the birthday field. -/
def add_birthday (r : Record) (raw : Str) : Option Record :=
  (validateBirthday raw).map (fun b => { r with birthday := some b })

/-- The Python dict self.data, as an insertion-ordered association list:
assignment replaces the value at an existing key in place, otherwise
appends a new entry at the end. -/
def dictInsert (book : List (Str × Record)) (key : Str) (v : Record) :
    List (Str × Record) :=
  match book with
  | [] => [(key, v)]
  | (k, r) :: rest =>
    if k == key then (k, v) :: rest else (k, r) :: dictInsert rest key v

/-- AddressBook.add_record: self.data[record.name.value] = record. -/
def add_record (book : List (Str × Record)) (rec : Record) : List (Str × Record) :=
  dictInsert book rec.name rec

/-- AddressBook.find: self.data.get(name). -/
def findRec (book : List (Str × Record)) (name : Str) : Option Record :=
  (book.find? (fun p => p.1 == name)).map (fun p => p.2)

/-- AddressBook.delete: self.data.pop(name, None), removing the entry with
that key when present. -/
def deleteRec (book : List (Str × Record)) (name : Str) : List (Str × Record) :=
  book.eraseP (fun p => p.1 == name)

/-- The mapping invariant: every key equals the name of the record stored
under it. -/
def keysMatch (book : List (Str × Record)) : Prop :=
  ∀ p ∈ book, p.1 = p.2.name

/-- date.toordinal building block: days in the years before year y
(proleptic Gregorian, day 1 = January 1 of year 1). -/
def daysBeforeYear (y : Nat) : Nat :=
  365 * (y - 1) + (y - 1) / 4 - (y - 1) / 100 + (y - 1) / 400

/-- date.toordinal building block: days in year y before month m. -/
def daysBeforeMonth (y m : Nat) : Nat :=
  (List.range (m - 1)).foldl (fun acc i => acc + daysInMonth y (i + 1)) 0

/-- date.toordinal. -/
def toOrdinal (d : PyDate) : Nat :=
  daysBeforeYear d.year + daysBeforeMonth d.year d.month + d.day

/-- date.weekday(): 0 = Monday .. 6 = Sunday. -/
def pyWeekday (d : PyDate) : Nat := (toOrdinal d + 6) % 7

/-- The calendar successor of a day (addition of timedelta(days=1)). -/
def nextDay (d : PyDate) : PyDate :=
  if d.day < daysInMonth d.year d.month then ⟨d.year, d.month, d.day + 1⟩
  else if d.month < 12 then ⟨d.year, d.month + 1, 1⟩
  else ⟨d.year + 1, 1, 1⟩

/-- Addition of timedelta(days=n). -/
def addDays (d : PyDate) : Nat → PyDate
  | 0 => d
  | n + 1 => nextDay (addDays d n)

/-- date.replace(year=y): construct the date with the new year and the old
month and day; none models the ValueError of the date constructor. -/
def replaceYear (b : PyDate) (y : Nat) : Option PyDate :=
  if validDate y b.month b.day then some ⟨y, b.month, b.day⟩ else none

/-- Lines 103-105 of get_upcoming_birthdays: the birthday projected into
today's year, advanced one year when that date is before today.  The order
on dates is the chronological one (Python compares date objects
chronologically). -/
def nextOccurrence (today b : PyDate) : Option PyDate :=
  match replaceYear b today.year with
  | none => none
  | some d0 =>
    if toOrdinal d0 < toOrdinal today then replaceYear b (today.year + 1) else some d0

/-- (d - today).days for dates: difference of the ordinals. -/
def dayGap (today d : PyDate) : Int :=
  (toOrdinal d : Int) - (toOrdinal today : Int)

/-- The digit character of a decimal digit. -/
def digitChar (k : Nat) : Char :=
  match k with
  | 0 => '0' | 1 => '1' | 2 => '2' | 3 => '3' | 4 => '4'
  | 5 => '5' | 6 => '6' | 7 => '7' | 8 => '8' | 9 => '9'
  | _ => '0'

/-- Decimal digits of n, via fuel-guarded division by 10. -/
def natToCharsAux : Nat → Nat → Str
  | 0, _ => []
  | f + 1, n =>
    if n < 10 then [digitChar n]
    else natToCharsAux f (n / 10) ++ [digitChar (n % 10)]

/-- Decimal digits of n. -/
def natToChars (n : Nat) : Str := natToCharsAux (n + 1) n

/-- strftime zero-padded two-digit field (%d, %m on values below 100). -/
def pad2 (n : Nat) : Str :=
  if n < 10 then ['0', digitChar n] else natToChars n

/-- strftime("%d.%m.%Y"). -/
def formatDMY (d : PyDate) : Str :=
  pad2 d.day ++ '.' :: pad2 d.month ++ '.' :: natToChars d.year

/-- Shape check for a DD.MM.YYYY string: two digits, a dot, two digits, a
dot, four digits. -/
def ddmmyyyyShape (s : Str) : Bool :=
  match s with
  | [a, b, c, d, e, f, g, h, i, j] =>
      isDigitChar a && isDigitChar b && (c == '.') && isDigitChar d &&
      isDigitChar e && (f == '.') && isDigitChar g && isDigitChar h &&
      isDigitChar i && isDigitChar j
  | _ => false

/-- One element of the list returned by get_upcoming_birthdays. -/
structure BdayEntry where
  name : Str
  birthday : Str
deriving DecidableEq, Repr

/-- Lines 110-111 of get_upcoming_birthdays: a Saturday or Sunday occurrence
is moved forward by 7 - weekday days, to the following Monday. -/
def rollWeekend (d : PyDate) : PyDate :=
  if 5 ≤ pyWeekday d then addDays d (7 - pyWeekday d) else d

/-- The body of the loop of get_upcoming_birthdays for one record:
none = the iteration raises; some none = the record is skipped;
some (some e) = the entry e is appended. -/
def processRecord (today : PyDate) (rec : Record) : Option (Option BdayEntry) :=
  match rec.birthday with
  | none => some none
  | some bs =>
    match strptimeDMY bs with
    | none => none
    | some b =>
      match nextOccurrence today b with
      | none => none
      | some occ =>
        if 0 ≤ dayGap today occ ∧ dayGap today occ ≤ 7 then
          some (some ⟨rec.name, formatDMY (rollWeekend occ)⟩)
        else some none

/-- AddressBook.get_upcoming_birthdays over the records in iteration order;
none models an exception escaping the loop. -/
def getUpcomingBirthdays (today : PyDate) : List (Str × Record) → Option (List BdayEntry)
  | [] => some []
  | (_, rec) :: rest =>
    match processRecord today rec with
    | none => none
    | some oe =>
      match getUpcomingBirthdays today rest with
      | none => none
      | some l => some (oe.toList ++ l)

/-- The inclusion condition of the claim: the record has a birthday whose
next occurrence exists and lies between 0 and 7 whole days from today. -/
def included (today : PyDate) (rec : Record) : Prop :=
  ∃ bs b occ, rec.birthday = some bs ∧ strptimeDMY bs = some b ∧
    nextOccurrence today b = some occ ∧
    0 ≤ dayGap today occ ∧ dayGap today occ ≤ 7

/-- The value trees that pickle serializes and reconstructs: the snapshot
of self.data is the dict of records, each record carrying its name string,
phone value strings, email string, and optional birthday string. -/
inductive PValue where
  | pstr (s : Str)
  | pnone
  | plist (items : List PValue)
  | pdict (entries : List (Str × PValue))

/-- The information content of one pickled Record object. -/
def pickleRecord (r : Record) : PValue :=
  .plist [.pstr r.name, .plist (r.phones.map .pstr), .pstr r.email,
          match r.birthday with
          | none => .pnone
          | some b => .pstr b]

/-- AddressBook.save: pickle.dump of the name-to-record dict. -/
def pickleBook (book : List (Str × Record)) : PValue :=
  .pdict (book.map (fun p => (p.1, pickleRecord p.2)))

/-- Reconstruction of a list of strings from pickled phone values. -/
def strsOf : List PValue → Option (List Str)
  | [] => some []
  | .pstr s :: rest => (strsOf rest).map (fun l => s :: l)
  | _ => none

/-- Reconstruction of an optional birthday string. -/
def optStrOf : PValue → Option (Option Str)
  | .pnone => some none
  | .pstr s => some (some s)
  | _ => none

/-- Reconstruction of one Record from its pickled form. -/
def unpickleRecord : PValue → Option Record
  | .plist [.pstr n, .plist ps, .pstr e, bd] =>
    match strsOf ps, optStrOf bd with
    | some phones, some b => some ⟨n, phones, e, b⟩
    | _, _ => none
  | _ => none

/-- Reconstruction of the dict entries. -/
def unpickleEntries : List (Str × PValue) → Option (List (Str × Record))
  | [] => some []
  | (k, v) :: rest =>
    match unpickleRecord v, unpickleEntries rest with
    | some r, some rs => some ((k, r) :: rs)
    | _, _ => none

/-- AddressBook.load reading a well-formed snapshot: pickle.load rebuilds
the dict of records. -/
def unpickleBook : PValue → Option (List (Str × Record))
  | .pdict l => unpickleEntries l
  | _ => none

/-- What reading the snapshot file can produce.  open raises
FileNotFoundError for a missing file; pickle.load on a corrupt stream
raises pickle.UnpicklingError (a pickle.PickleError) or, for a truncated
or empty stream, EOFError, which is not a PickleError. -/
inductive LoadRead where
  | raisesFileNotFound
  | raisesPickleError
  | raisesEOFError
  | ok (data : List (Str × Record))
deriving DecidableEq

/-- AddressBook.load: try self.data = pickle.load(fh) with an except clause
for exactly (FileNotFoundError, pickle.PickleError), which resets the data
to the empty dict; any other exception propagates (modeled as none). -/
def load (r : LoadRead) : Option (List (Str × Record)) :=
  match r with
  | .ok d => some d
  | .raisesFileNotFound => some []
  | .raisesPickleError => some []
  | .raisesEOFError => none

/-- Every phone value stored in the record satisfies the Phone invariant. -/
def phonesInv (r : Record) : Prop :=
  ∀ p ∈ r.phones, validPhoneValue p = true

/-- Range bounds of a date object (its constructor guarantees them). -/
def dateBounds (d : PyDate) : Prop :=
  1 ≤ d.day ∧ d.day ≤ daysInMonth d.year d.month ∧ 1 ≤ d.month ∧ d.month ≤ 12

/-- Concrete sample input: a phone string with all three separators. -/
def phoneRaw1 : Str := ['+', '3', '8', '0', '5', '0', ' ', '1', '2', '3', '-', '4', '5', '-', '6', '7']

/-- Concrete sample input: unpadded day and month accepted by strptime. -/
def lenientRaw : Str := ['5', '.', '6', '.', '2', '0', '2', '4']

def phone10 : Str := ['1', '2', '3', '4', '5', '6', '7', '8', '9', '0']

def phone10b : Str := ['0', '9', '8', '7', '6', '5', '4', '3', '2', '1']

def phoneAbsent : Str := ['0', '0', '0', '0', '0', '0', '0', '0', '0', '0']

/-- A lookup string still containing a separator character. -/
def sepStr : Str := ['0', '5', '0', ' ', '1', '2', '3']

def rec10 : Record := ⟨['J', 'o', 'h', 'n'], [phone10], [], none⟩

def nameAlice : Str := ['A', 'l', 'i', 'c', 'e']

def bdAlice : Str := ['1', '4', '.', '0', '6', '.', '1', '9', '9', '0']

def recAlice : Record := ⟨nameAlice, [], [], some bdAlice⟩

def today2024 : PyDate := ⟨2024, 6, 10⟩

def bookAlice : List (Str × Record) := [(nameAlice, recAlice)]

def outAlice : List BdayEntry :=
  [⟨nameAlice, ['1', '4', '.', '0', '6', '.', '2', '0', '2', '4']⟩]

def nameSat : Str := ['B', 'o', 'b']

def bdSat : Str := ['1', '5', '.', '0', '6', '.', '1', '9', '9', '0']

def recSat : Record := ⟨nameSat, [], [], some bdSat⟩

def bookSat : List (Str × Record) := [(nameSat, recSat)]

def outSat : List BdayEntry :=
  [⟨nameSat, ['1', '7', '.', '0', '6', '.', '2', '0', '2', '4']⟩]

def nameLeap : Str := ['E', 'v', 'e']

def bdLeap : Str := ['2', '9', '.', '0', '2', '.', '2', '0', '0', '0']

def recLeap : Record := ⟨nameLeap, [], [], some bdLeap⟩

def today2025 : PyDate := ⟨2025, 6, 10⟩

def bookLeap : List (Str × Record) := [(nameLeap, recLeap)]

def nameBob : Str := ['B', 'o', 'b']

end AssistantBot

namespace AssistantBot

theorem validatePhone_eq (raw : Str) :
    validatePhone raw =
      if validPhoneValue (cleanPhone raw) then some (cleanPhone raw) else none := by
  simp only [validatePhone, validPhoneValue, pyIsdigit]
  rcases hc : cleanPhone raw with _ | ⟨a, as⟩
  · simp
  · simp only [List.isEmpty_cons, Bool.not_false, Bool.true_and]
    rw [← Bool.not_and]
    rcases Bool.eq_false_or_eq_true
        ((a :: as).all isDigitChar && ((a :: as).length == 10 || (a :: as).length == 12)) with
      hab | hab <;> simp only [hab, Bool.not_true, Bool.not_false] <;> simp

/-- A successfully constructed phone value satisfies the storage invariant. -/
theorem validPhone_of_validatePhone {raw v : Str} (h : validatePhone raw = some v) :
    validPhoneValue v = true := by
  rw [validatePhone_eq] at h
  split at h
  · cases h; assumption
  · cases h

theorem validatePhone_some_eq_clean {raw v : Str} (h : validatePhone raw = some v) :
    v = cleanPhone raw := by
  rw [validatePhone_eq] at h
  split at h
  · cases h; rfl
  · cases h

/-- A valid stored phone value cannot be equal to a string that still
contains a separator character. -/
theorem validPhone_ne_of_sep {p s : Str} (hp : validPhoneValue p = true)
    (hs : hasSeparator s = true) : p ≠ s := by
  rintro rfl
  simp only [validPhoneValue, Bool.and_eq_true, List.all_eq_true] at hp
  simp only [hasSeparator, List.any_eq_true] at hs
  obtain ⟨c, hc, hor⟩ := hs
  have := hp.1 c hc
  simp only [Bool.or_eq_true, beq_iff_eq] at hor
  rcases hor with (rfl | rfl) | rfl <;> simp [isDigitChar] at this

theorem reDay_eq (s : Str) : reDay s = numToken 31 s := by
  rw [Bool.eq_iff_iff]
  rcases s with _ | ⟨a, _ | ⟨b, _ | ⟨c, t⟩⟩⟩ <;>
    simp [reDay, numToken, digitsVal, charVal, isDigitChar, List.all_cons] <;> omega

theorem reMonth_eq (s : Str) : reMonth s = numToken 12 s := by
  rw [Bool.eq_iff_iff]
  rcases s with _ | ⟨a, _ | ⟨b, _ | ⟨c, t⟩⟩⟩ <;>
    simp [reMonth, numToken, digitsVal, charVal, isDigitChar, List.all_cons] <;> omega

theorem reYear_eq (s : Str) : reYear s = yearToken s := by
  rw [Bool.eq_iff_iff]
  rcases s with _ | ⟨a, _ | ⟨b, _ | ⟨c, _ | ⟨d, _ | ⟨e, t⟩⟩⟩⟩⟩ <;>
    simp [reYear, yearToken, List.all_cons] <;> tauto

theorem validateBirthday_eq (raw : Str) :
    validateBirthday raw = if specLenientDMY raw then some raw else none := by
  unfold validateBirthday strptimeDMY specLenientDMY
  rcases hsp : splitDots raw with _ | ⟨ds, _ | ⟨ms, _ | ⟨ys, _ | ⟨zs, rest⟩⟩⟩⟩ <;> simp
  rw [reDay_eq, reMonth_eq, reYear_eq]
  by_cases h1 : numToken 31 ds = true <;> by_cases h2 : numToken 12 ms = true <;>
    by_cases h3 : yearToken ys = true <;>
    by_cases h4 : validDate (digitsVal ys) (digitsVal ms) (digitsVal ds) = true <;>
    simp [h1, h2, h3, h4]

/-- C4: Phone construction succeeds if and only if the string obtained by
deleting every '+', '-' and space consists solely of digits and has length
exactly 10 or exactly 12, and on success the stored canonical value is
exactly that cleaned digit string. -/
theorem phone_validation_spec (raw : Str) :
    ((validatePhone raw).isSome = true ↔
      ((cleanPhone raw).all isDigitChar = true ∧
        ((cleanPhone raw).length = 10 ∨ (cleanPhone raw).length = 12))) ∧
    ∀ v, validatePhone raw = some v → v = cleanPhone raw := by
  refine ⟨?_, fun v hv => validatePhone_some_eq_clean hv⟩
  have hiff : validPhoneValue (cleanPhone raw) = true ↔
      ((cleanPhone raw).all isDigitChar = true ∧
        ((cleanPhone raw).length = 10 ∨ (cleanPhone raw).length = 12)) := by
    simp [validPhoneValue]
  rw [validatePhone_eq, ← hiff]
  rcases Bool.eq_false_or_eq_true (validPhoneValue (cleanPhone raw)) with h | h <;> simp [h]

theorem phone_validation_spec_witness : (validatePhone phoneRaw1).isSome = true :=
  (phone_validation_spec phoneRaw1).1.mpr (by decide)

/-- C5 counterexample: the string 5.6.2024 is not in the exact literal
DD.MM.YYYY format, yet Birthday construction accepts it (and stores it
verbatim), because strptime's %d and %m also match single digits. -/
theorem birthday_exact_format_counterexample :
    validateBirthday lenientRaw = some lenientRaw ∧ specPaddedDMY lenientRaw = false :=
  ⟨by decide, by decide⟩

/-- C5 amended: Birthday construction succeeds if and only if the string is
day.month.year with a 1-2 digit day, a 1-2 digit month and an exactly
4-digit year forming an existing calendar date, and on success the stored
value is the original raw string verbatim. -/
theorem birthday_validation_amended (raw : Str) :
    validateBirthday raw = if specLenientDMY raw then some raw else none :=
  validateBirthday_eq raw

/-- C8: load resets to an empty collection and returns normally when the
file is missing or unpickling raises a pickle.PickleError, but a corrupt
snapshot that makes pickle.load raise EOFError (e.g. a truncated or empty
file) is not caught: the exception propagates (none). -/
theorem load_failure_modes :
    load .raisesFileNotFound = some [] ∧ load .raisesPickleError = some [] ∧
    load .raisesEOFError = none :=
  ⟨rfl, rfl, rfl⟩

theorem strsOf_map (l : List Str) : strsOf (l.map PValue.pstr) = some l := by
  induction l with
  | nil => rfl
  | cons s rest ih => simp [strsOf, ih]

theorem unpickleRecord_pickleRecord (r : Record) :
    unpickleRecord (pickleRecord r) = some r := by
  rcases r with ⟨n, ps, e, bd⟩
  rcases bd with _ | b <;> simp [pickleRecord, unpickleRecord, strsOf_map, optStrOf]

/-- C9: a save followed by a load of the same snapshot reproduces every
record exactly: name, phone list (values and order), email and birthday
string. -/
theorem save_load_roundtrip (book : List (Str × Record)) :
    unpickleBook (pickleBook book) = some book := by
  induction book with
  | nil => rfl
  | cons p rest ih =>
    rcases p with ⟨k, r⟩
    simp only [pickleBook, unpickleBook, List.map_cons] at ih ⊢
    simp [unpickleEntries, unpickleRecord_pickleRecord, ih]

theorem editPhoneList_oldNotFound_iff (old new : Str) (ps : List Str) :
    editPhoneList old new ps = .oldNotFound ↔ old ∉ ps := by
  induction ps with
  | nil => simp [editPhoneList]
  | cons p rest ih =>
    rw [editPhoneList]
    by_cases hp : p = old
    · subst hp
      simp only [beq_self_eq_true, if_true]
      rcases hv : validatePhone new with _ | c <;> simp [List.mem_cons]
    · have hb : (p == old) = false := by simp [hp]
      simp only [hb, Bool.false_eq_true, if_false]
      have hne : old ≠ p := fun hcon => hp hcon.symm
      rcases he : editPhoneList old new rest with qs | _ | _ <;>
        rw [he] at ih <;> simp at ih <;> simp [List.mem_cons, hne, ih]

theorem editPhoneList_updated (old new : Str) :
    ∀ ps qs, editPhoneList old new ps = .updated qs →
      ∃ pre post canon, ps = pre ++ old :: post ∧ old ∉ pre ∧
        validatePhone new = some canon ∧ qs = pre ++ canon :: post := by
  intro ps
  induction ps with
  | nil => intro qs h; simp [editPhoneList] at h
  | cons p rest ih =>
    intro qs h
    rw [editPhoneList] at h
    by_cases hp : p = old
    · subst hp
      simp only [beq_self_eq_true, if_true] at h
      rcases hv : validatePhone new with _ | c <;> rw [hv] at h
      · cases h
      · cases h
        exact ⟨[], rest, c, by simp, by simp, rfl, by simp⟩
    · have hb : (p == old) = false := by simp [hp]
      simp only [hb, Bool.false_eq_true, if_false] at h
      rcases he : editPhoneList old new rest with qs' | _ | _ <;> rw [he] at h <;> cases h
      obtain ⟨pre, post, canon, h1, h2, h3, h4⟩ := ih qs' he
      refine ⟨p :: pre, post, canon, by simp [h1], ?_, h3, by simp [h4]⟩
      simp only [List.mem_cons, not_or]
      exact ⟨fun hcon => hp hcon.symm, h2⟩

/-- C6: edit_phone reports old-phone-not-found exactly when no stored phone
equals oldValue; on success it replaces only the first matching phone with
the canonical form of newValue; and whenever it fails the phone list is
left exactly as it was. -/
theorem edit_phone_spec (r : Record) (old new : Str) :
    (edit_phone r old new = .oldNotFound ↔ old ∉ r.phones) ∧
    (∀ ps, edit_phone r old new = .updated ps →
      ∃ pre post canon, r.phones = pre ++ old :: post ∧ old ∉ pre ∧
        validatePhone new = some canon ∧ ps = pre ++ canon :: post) ∧
    ((edit_phone r old new = .oldNotFound ∨ edit_phone r old new = .invalidNew) →
      recordAfterEdit r old new = r) := by
  refine ⟨editPhoneList_oldNotFound_iff old new r.phones,
          fun ps h => editPhoneList_updated old new r.phones ps h, ?_⟩
  rintro (h | h) <;> unfold recordAfterEdit <;> rw [h]

theorem edit_phone_spec_witness :
    edit_phone rec10 phoneAbsent phone10b = .oldNotFound :=
  (edit_phone_spec rec10 phoneAbsent phone10b).1.mpr (by decide)

/-- C10: phone values are stored as all-digit strings of length 10 or 12
(established by construction, preserved by every phone operation), so a
lookup string still containing '+', '-' or a space never matches:
find_phone is absent, remove_phone is a no-op, edit_phone fails. -/
theorem phone_storage_invariant (r : Record) (hinv : phonesInv r) :
    (∀ nm ph em r', mkRecord nm ph em = some r' → phonesInv r') ∧
    (∀ raw r', add_phone r raw = some r' → phonesInv r') ∧
    (∀ v, phonesInv (remove_phone r v)) ∧
    (∀ o n ps, edit_phone r o n = .updated ps → phonesInv { r with phones := ps }) ∧
    (∀ s, hasSeparator s = true →
      find_phone r s = none ∧ remove_phone r s = r ∧
        ∀ n, edit_phone r s n = .oldNotFound) := by
  have hnotmem : ∀ s, hasSeparator s = true → s ∉ r.phones := by
    intro s hs hmem
    exact validPhone_ne_of_sep (hinv s hmem) hs rfl
  refine ⟨?_, ?_, ?_, ?_, ?_⟩
  · intro nm ph em r' h
    rcases ph with _ | p <;> simp only [mkRecord] at h
    · cases h; intro p hp; simp at hp
    · split at h
      · cases h; intro p hp; simp at hp
      · rcases hv : validatePhone p with _ | c <;> rw [hv] at h
        · cases h
        · cases h
          intro q hq
          simp only [List.mem_singleton] at hq
          subst hq
          exact validPhone_of_validatePhone hv
  · intro raw r' h
    rcases hv : validatePhone raw with _ | c <;> rw [add_phone, hv] at h
    · cases h
    · cases h
      intro q hq
      simp only [List.mem_append, List.mem_singleton] at hq
      rcases hq with hq | hq
      · exact hinv q hq
      · subst hq; exact validPhone_of_validatePhone hv
  · intro v q hq
    exact hinv q (List.mem_of_mem_filter hq)
  · intro o n ps h
    obtain ⟨pre, post, canon, h1, _, h3, h4⟩ := editPhoneList_updated o n r.phones ps h
    intro q hq
    rw [h4] at hq
    simp only [List.mem_append, List.mem_cons] at hq
    rcases hq with hq | hq | hq
    · exact hinv q (by rw [h1]; exact List.mem_append_left _ hq)
    · subst hq; exact validPhone_of_validatePhone h3
    · exact hinv q (by rw [h1]; exact List.mem_append_right _ (List.mem_cons_of_mem _ hq))
  · intro s hs
    have hnm := hnotmem s hs
    refine ⟨?_, ?_, fun n => (editPhoneList_oldNotFound_iff s n r.phones).mpr hnm⟩
    · apply List.find?_eq_none.mpr
      intro p hp
      simp only [beq_iff_eq]
      exact fun hcon => hnm (hcon ▸ hp)
    · have hfil : r.phones.filter (fun p => p != s) = r.phones := by
        apply List.filter_eq_self.mpr
        intro p hp
        simp only [bne_iff_ne, ne_eq]
        exact fun hcon => hnm (hcon ▸ hp)
      rcases r with ⟨nm, phs, em, bd⟩
      simp only [remove_phone] at hfil ⊢
      simp [hfil]

theorem phone_storage_invariant_witness :
    edit_phone rec10 sepStr phone10b = .oldNotFound :=
  ((phone_storage_invariant rec10
      (by intro p hp; simp only [rec10, List.mem_singleton] at hp; subst hp; decide)).2.2.2.2
    sepStr (by decide)).2.2 phone10b

theorem keysMatch_dictInsert {book : List (Str × Record)} {key : Str} {v : Record}
    (hk : key = v.name) (h : keysMatch book) : keysMatch (dictInsert book key v) := by
  induction book with
  | nil =>
    intro p hp
    simp only [dictInsert, List.mem_singleton] at hp
    subst hp; exact hk
  | cons hd rest ih =>
    rcases hd with ⟨k, r⟩
    rw [dictInsert]
    by_cases hkk : (k == key) = true
    · simp only [hkk, if_true]
      intro p hp
      rcases List.mem_cons.mp hp with rfl | hp
      · simpa [beq_iff_eq.mp hkk] using hk
      · exact h p (List.mem_cons_of_mem _ hp)
    · simp only [hkk, if_false]
      intro p hp
      rcases List.mem_cons.mp hp with rfl | hp
      · exact h _ (List.mem_cons_self _ _)
      · exact ih (fun q hq => h q (List.mem_cons_of_mem _ hq)) p hp

theorem findRec_dictInsert_self (book : List (Str × Record)) (key : Str) (v : Record) :
    findRec (dictInsert book key v) key = some v := by
  induction book with
  | nil => simp [dictInsert, findRec, List.find?]
  | cons hd rest ih =>
    rcases hd with ⟨k, r⟩
    rw [dictInsert]
    by_cases hkk : (k == key) = true
    · simp [findRec, List.find?, hkk]
    · simp only [hkk, if_false]
      simp only [findRec, List.find?, hkk] at ih ⊢
      exact ih

theorem findRec_dictInsert_other {book : List (Str × Record)} {key n : Str} {v : Record}
    (hn : n ≠ key) : findRec (dictInsert book key v) n = findRec book n := by
  have hb : (key == n) = false := beq_eq_false_iff_ne.mpr (fun h => hn h.symm)
  induction book with
  | nil => simp [dictInsert, findRec, List.find?, hb]
  | cons hd rest ih =>
    rcases hd with ⟨k, r⟩
    rw [dictInsert]
    by_cases hkk : (k == key) = true
    · have hk2 : k = key := beq_iff_eq.mp hkk
      subst hk2
      simp [findRec, List.find?, hb]
    · simp only [hkk, if_false]
      by_cases hkn : (k == n) = true
      · simp [findRec, List.find?, hkn]
      · simp only [findRec, List.find?, hkn] at ih ⊢
        exact ih

/-- C7: the mapping keys always equal the stored record's name (preserved
by add_record and delete), add_record stores the record under its own name,
silently replacing any prior record of that name, and leaves every other
name's entry unchanged. -/
theorem address_book_key_invariant :
    keysMatch ([] : List (Str × Record)) ∧
    (∀ book rec, keysMatch book → keysMatch (add_record book rec)) ∧
    (∀ book name, keysMatch book → keysMatch (deleteRec book name)) ∧
    (∀ book rec, findRec (add_record book rec) rec.name = some rec) ∧
    (∀ book rec name, name ≠ rec.name → findRec (add_record book rec) name = findRec book name) := by
  refine ⟨fun p hp => absurd hp (List.not_mem_nil p), ?_, ?_, ?_, ?_⟩
  · intro book rec h
    exact keysMatch_dictInsert rfl h
  · intro book name h p hp
    exact h p ((List.eraseP_sublist book).subset hp)
  · intro book rec
    exact findRec_dictInsert_self book rec.name rec
  · intro book rec name hn
    exact findRec_dictInsert_other hn

theorem address_book_key_invariant_witness :
    findRec (add_record [] recAlice) nameBob = findRec [] nameBob :=
  address_book_key_invariant.2.2.2.2 [] recAlice nameBob (by decide)

theorem processRecord_feb29 {today : PyDate} {rec : Record} {bs : Str} {b : PyDate}
    (hbs : rec.birthday = some bs) (hb : strptimeDMY bs = some b)
    (hm : b.month = 2) (hd : b.day = 29) (hleap : isLeap today.year = false) :
    processRecord today rec = none := by
  have hocc : nextOccurrence today b = none := by
    unfold nextOccurrence replaceYear
    have hv : validDate today.year b.month b.day = false := by
      rw [hm, hd]
      simp [validDate, daysInMonth, hleap]
    rw [hv]
    rfl
  simp only [processRecord, hbs, hb, hocc]

theorem getUpcoming_none_of_mem (today : PyDate) {book : List (Str × Record)}
    {k : Str} {rec : Record} (hmem : (k, rec) ∈ book)
    (hp : processRecord today rec = none) :
    getUpcomingBirthdays today book = none := by
  induction book with
  | nil => simp at hmem
  | cons hd rest ih =>
    rcases hd with ⟨k', r'⟩
    rw [getUpcomingBirthdays]
    rcases List.mem_cons.mp hmem with heq | hmem'
    · cases heq
      rw [hp]
    · rcases hq : processRecord today r' with _ | oe
      · rfl
      · rw [ih hmem']

/-- C3: a record whose birthday is February 29 makes get_upcoming_birthdays
raise (return nothing) whenever the year the birthday is substituted into,
today's year, is not a leap year. -/
theorem upcoming_feb29_raises (today : PyDate) (book : List (Str × Record))
    (k : Str) (rec : Record) (bs : Str) (b : PyDate)
    (hmem : (k, rec) ∈ book) (hbs : rec.birthday = some bs)
    (hb : strptimeDMY bs = some b) (hm : b.month = 2) (hd : b.day = 29)
    (hleap : isLeap today.year = false) :
    getUpcomingBirthdays today book = none :=
  getUpcoming_none_of_mem today hmem (processRecord_feb29 hbs hb hm hd hleap)

theorem upcoming_feb29_raises_witness :
    getUpcomingBirthdays today2025 bookLeap = none :=
  upcoming_feb29_raises today2025 bookLeap nameLeap recLeap bdLeap ⟨2000, 2, 29⟩
    (by decide) (by decide) (by decide) rfl rfl (by decide)

theorem processRecord_name {today : PyDate} {rec : Record} {e : BdayEntry}
    (h : processRecord today rec = some (some e)) : e.name = rec.name := by
  rcases hbs : rec.birthday with _ | bs
  · simp [processRecord, hbs] at h
  · rcases hb : strptimeDMY bs with _ | b
    · simp [processRecord, hbs, hb] at h
    · rcases ho : nextOccurrence today b with _ | occ
      · simp [processRecord, hbs, hb, ho] at h
      · simp only [processRecord, hbs, hb, ho] at h
        split at h
        · simp only [Option.some.injEq] at h
          rw [← h]
        · simp at h

theorem processRecord_isSome_iff {today : PyDate} {rec : Record} {oe : Option BdayEntry}
    (h : processRecord today rec = some oe) :
    (∃ e, oe = some e) ↔ included today rec := by
  rcases hbs : rec.birthday with _ | bs
  · simp only [processRecord, hbs, Option.some.injEq] at h
    subst h
    simp [included, hbs]
  · rcases hb : strptimeDMY bs with _ | b
    · simp [processRecord, hbs, hb] at h
    · rcases ho : nextOccurrence today b with _ | occ
      · simp [processRecord, hbs, hb, ho] at h
      · simp only [processRecord, hbs, hb, ho] at h
        split at h
        · simp only [Option.some.injEq] at h
          subst h
          constructor
          · intro _
            exact ⟨bs, b, occ, hbs, hb, ho, by assumption⟩
          · intro _
            exact ⟨_, rfl⟩
        · simp only [Option.some.injEq] at h
          subst h
          constructor
          · rintro ⟨e, he⟩
            cases he
          · rintro ⟨bs', b', occ', hbs', hb', ho', hwin⟩
            rw [hbs] at hbs'
            cases hbs'
            rw [hb] at hb'
            cases hb'
            rw [ho] at ho'
            cases ho'
            exact absurd hwin (by assumption)

theorem processRecord_entry {today : PyDate} {rec : Record} {e : BdayEntry}
    {bs : Str} {b occ : PyDate}
    (h : processRecord today rec = some (some e)) (hbs : rec.birthday = some bs)
    (hb : strptimeDMY bs = some b) (hocc : nextOccurrence today b = some occ) :
    e = ⟨rec.name, formatDMY (rollWeekend occ)⟩ := by
  simp only [processRecord, hbs, hb, hocc] at h
  split at h
  · simp only [Option.some.injEq] at h
    rw [← h]
  · simp at h

theorem upcoming_names {today : PyDate} :
    ∀ {book : List (Str × Record)} {out : List BdayEntry},
      getUpcomingBirthdays today book = some out →
      ∀ e ∈ out, ∃ p ∈ book, e.name = p.2.name := by
  intro book
  induction book with
  | nil =>
    intro out h
    rw [getUpcomingBirthdays] at h
    simp only [Option.some.injEq] at h
    subst h
    intro e he
    simp at he
  | cons hd rest ih =>
    intro out h
    rcases hd with ⟨k, rec⟩
    rw [getUpcomingBirthdays] at h
    rcases hp : processRecord today rec with _ | oe <;> rw [hp] at h
    · cases h
    · rcases hr : getUpcomingBirthdays today rest with _ | l <;> rw [hr] at h
      · cases h
      · simp only [Option.some.injEq] at h
        subst h
        intro e he
        rcases List.mem_append.mp he with he | he
        · rcases oe with _ | e'
          · simp at he
          · simp only [Option.toList_some, List.mem_singleton] at he
            subst he
            exact ⟨(k, rec), List.mem_cons_self _ _, processRecord_name hp⟩
        · obtain ⟨q, hq, hname⟩ := ih hr e he
          exact ⟨q, List.mem_cons_of_mem _ hq, hname⟩

theorem upcoming_helper (today : PyDate) :
    ∀ (book : List (Str × Record)) (out : List BdayEntry) (k : Str) (rec : Record),
      (book.map (fun p => p.2.name)).Nodup →
      getUpcomingBirthdays today book = some out →
      (k, rec) ∈ book →
      (((∃ e ∈ out, e.name = rec.name) ↔ included today rec) ∧
       (∀ e ∈ out, e.name = rec.name → processRecord today rec = some (some e))) := by
  intro book
  induction book with
  | nil =>
    intro out k rec _ _ hmem
    simp at hmem
  | cons hd rest ih =>
    intro out k rec hnd hres hmem
    rcases hd with ⟨k', r'⟩
    rw [getUpcomingBirthdays] at hres
    rcases hp : processRecord today r' with _ | oe <;> rw [hp] at hres
    · cases hres
    rcases hr : getUpcomingBirthdays today rest with _ | l <;> rw [hr] at hres
    · cases hres
    simp only [Option.some.injEq] at hres
    subst hres
    simp only [List.map_cons, List.nodup_cons] at hnd
    obtain ⟨hn1, hn2⟩ := hnd
    rcases List.mem_cons.mp hmem with heq | hmem'
    · cases heq
      constructor
      · constructor
        · rintro ⟨e, he, hename⟩
          rcases List.mem_append.mp he with he | he
          · rcases oe with _ | e'
            · simp at he
            · simp only [Option.toList_some, List.mem_singleton] at he
              subst he
              exact (processRecord_isSome_iff hp).mp ⟨_, rfl⟩
          · obtain ⟨q, hq, hqname⟩ := upcoming_names hr e he
            exact absurd (hename ▸ hqname ▸ (List.mem_map_of_mem (fun p => p.2.name) hq))
              hn1
        · intro hinc
          obtain ⟨e', he'⟩ := (processRecord_isSome_iff hp).mpr hinc
          subst he'
          exact ⟨e', List.mem_append_left _ (by simp), processRecord_name hp⟩
      · intro e he hename
        rcases List.mem_append.mp he with he | he
        · rcases oe with _ | e'
          · simp at he
          · simp only [Option.toList_some, List.mem_singleton] at he
            subst he
            exact hp
        · obtain ⟨q, hq, hqname⟩ := upcoming_names hr e he
          exact absurd (hename ▸ hqname ▸ (List.mem_map_of_mem (fun p => p.2.name) hq))
            hn1
    · have hneq : r'.name ≠ rec.name := by
        intro hcontra
        exact hn1 (hcontra ▸ List.mem_map_of_mem (fun p => p.2.name) hmem')
      obtain ⟨ih1, ih2⟩ := ih l k rec hn2 hr hmem'
      constructor
      · rw [← ih1]
        constructor
        · rintro ⟨e, he, hename⟩
          rcases List.mem_append.mp he with he | he
          · rcases oe with _ | e'
            · simp at he
            · simp only [Option.toList_some, List.mem_singleton] at he
              subst he
              exact absurd (processRecord_name hp ▸ hename) hneq
          · exact ⟨e, he, hename⟩
        · rintro ⟨e, he, hename⟩
          exact ⟨e, List.mem_append_right _ he, hename⟩
      · intro e he hename
        rcases List.mem_append.mp he with he | he
        · rcases oe with _ | e'
          · simp at he
          · simp only [Option.toList_some, List.mem_singleton] at he
            subst he
            exact absurd (processRecord_name hp ▸ hename) hneq
        · exact ih2 e he hename

/-- C1: under a successful call, a record with a birthday appears in the
result exactly when the next occurrence of its birthday (its day/month in
today's year, advanced one year when that date is before today) lies
between 0 and 7 whole days from today inclusive, and a record without a
birthday never appears. -/
theorem upcoming_inclusion (today : PyDate) (book : List (Str × Record))
    (out : List BdayEntry) (k : Str) (rec : Record)
    (hnd : (book.map (fun p => p.2.name)).Nodup)
    (hres : getUpcomingBirthdays today book = some out)
    (hmem : (k, rec) ∈ book) :
    (rec.birthday = none → ∀ e ∈ out, e.name ≠ rec.name) ∧
    ((∃ e ∈ out, e.name = rec.name) ↔ included today rec) := by
  have h := upcoming_helper today book out k rec hnd hres hmem
  refine ⟨?_, h.1⟩
  intro hnone e he hename
  obtain ⟨bs, _, _, hbs, _⟩ := h.1.mp ⟨e, he, hename⟩
  rw [hnone] at hbs
  cases hbs

theorem upcoming_inclusion_witness :
    (recAlice.birthday = none → ∀ e ∈ outAlice, e.name ≠ recAlice.name) ∧
    ((∃ e ∈ outAlice, e.name = recAlice.name) ↔ included today2024 recAlice) :=
  upcoming_inclusion today2024 bookAlice outAlice nameAlice recAlice
    (by decide) (by decide) (by decide)

theorem validDate_unpack {y m d : Nat} (h : validDate y m d = true) :
    1 ≤ y ∧ y ≤ 9999 ∧ 1 ≤ m ∧ m ≤ 12 ∧ 1 ≤ d ∧ d ≤ daysInMonth y m := by
  simp only [validDate, Bool.and_eq_true, decide_eq_true_eq] at h
  tauto

theorem daysInMonth_le_31 (y m : Nat) : daysInMonth y m ≤ 31 := by
  unfold daysInMonth
  split
  · split <;> omega
  · split <;> omega

theorem one_le_daysInMonth (y m : Nat) : 1 ≤ daysInMonth y m := by
  unfold daysInMonth
  split
  · split <;> omega
  · split <;> omega

theorem dateBounds_of_validDate (d : PyDate)
    (h : validDate d.year d.month d.day = true) : dateBounds d := by
  obtain ⟨_, _, h3, h4, h5, h6⟩ := validDate_unpack h
  exact ⟨h5, h6, h3, h4⟩

theorem nextDay_bounds {d : PyDate} (h : dateBounds d) :
    dateBounds (nextDay d) ∧ d.year ≤ (nextDay d).year ∧ (nextDay d).year ≤ d.year + 1 := by
  obtain ⟨h1, h2, h3, h4⟩ := h
  have hdm := one_le_daysInMonth d.year (d.month + 1)
  have hdm2 := one_le_daysInMonth (d.year + 1) 1
  unfold nextDay
  by_cases hlt : d.day < daysInMonth d.year d.month
  · rw [if_pos hlt]
    refine ⟨⟨?_, ?_, ?_, ?_⟩, ?_, ?_⟩ <;> (try simp) <;> omega
  · rw [if_neg hlt]
    by_cases hm : d.month < 12
    · rw [if_pos hm]
      refine ⟨⟨?_, ?_, ?_, ?_⟩, ?_, ?_⟩ <;> (try simp) <;> omega
    · rw [if_neg hm]
      refine ⟨⟨?_, ?_, ?_, ?_⟩, ?_, ?_⟩ <;> (try simp) <;> omega

theorem addDays_bounds {d : PyDate} (h : dateBounds d) (n : Nat) :
    dateBounds (addDays d n) ∧ d.year ≤ (addDays d n).year ∧
      (addDays d n).year ≤ d.year + n := by
  induction n with
  | zero => exact ⟨h, le_refl _, le_refl _⟩
  | succ n ih =>
    have hn := nextDay_bounds ih.1
    refine ⟨hn.1, ?_, ?_⟩
    · have := ih.2.1
      have := hn.2.1
      show d.year ≤ (nextDay (addDays d n)).year
      omega
    · have := ih.2.2
      have := hn.2.2
      show (nextDay (addDays d n)).year ≤ d.year + (n + 1)
      omega

theorem rollWeekend_bounds {d : PyDate} (h : dateBounds d) :
    dateBounds (rollWeekend d) ∧ d.year ≤ (rollWeekend d).year ∧
      (rollWeekend d).year ≤ d.year + 2 := by
  unfold rollWeekend
  by_cases hw : 5 ≤ pyWeekday d
  · rw [if_pos hw]
    have hw7 : pyWeekday d < 7 := Nat.mod_lt _ (by omega)
    have hadd := addDays_bounds h (7 - pyWeekday d)
    refine ⟨hadd.1, hadd.2.1, ?_⟩
    have := hadd.2.2
    omega
  · rw [if_neg hw]
    exact ⟨h, le_refl _, by omega⟩

theorem nextOccurrence_shape {today b occ : PyDate}
    (h : nextOccurrence today b = some occ) :
    validDate occ.year occ.month occ.day = true ∧
      (occ.year = today.year ∨ occ.year = today.year + 1) := by
  unfold nextOccurrence replaceYear at h
  cases hv : validDate today.year b.month b.day <;> simp [hv] at h
  by_cases hord : toOrdinal ⟨today.year, b.month, b.day⟩ < toOrdinal today
  · rw [if_pos hord] at h
    cases hv2 : validDate (today.year + 1) b.month b.day <;> simp [hv2] at h
    subst h
    exact ⟨hv2, Or.inr rfl⟩
  · rw [if_neg hord] at h
    simp only [Option.some.injEq] at h
    subst h
    exact ⟨hv, Or.inl rfl⟩

theorem digitChar_isDigit (k : Nat) : isDigitChar (digitChar k) = true := by
  unfold digitChar
  split <;> decide

theorem natToCharsAux_fuel :
    ∀ f g n, n < f → n < g → natToCharsAux f n = natToCharsAux g n := by
  intro f
  induction f with
  | zero => intro g n h _; omega
  | succ f ih =>
    intro g n hf hg
    rcases g with _ | g
    · omega
    · simp only [natToCharsAux]
      by_cases h10 : n < 10
      · simp [h10]
      · simp only [h10, if_false]
        rw [ih g (n / 10) (by omega) (by omega)]

theorem natToChars_small {n : Nat} (h : n < 10) : natToChars n = [digitChar n] := by
  simp [natToChars, natToCharsAux, h]

theorem natToChars_step {n : Nat} (h : 10 ≤ n) :
    natToChars n = natToChars (n / 10) ++ [digitChar (n % 10)] := by
  unfold natToChars
  simp only [natToCharsAux]
  have h10 : ¬ n < 10 := by omega
  simp only [h10, if_false]
  rw [natToCharsAux_fuel n (n / 10 + 1) (n / 10) (by omega) (by omega)]
  simp only [natToCharsAux]

theorem pad2_shape (n : Nat) (h : n ≤ 99) :
    ∃ c1 c2, pad2 n = [c1, c2] ∧ isDigitChar c1 = true ∧ isDigitChar c2 = true := by
  unfold pad2
  by_cases h10 : n < 10
  · rw [if_pos h10]
    exact ⟨'0', digitChar n, rfl, by decide, digitChar_isDigit n⟩
  · rw [if_neg h10]
    rw [natToChars_step (by omega), natToChars_small (by omega)]
    exact ⟨digitChar (n / 10), digitChar (n % 10), rfl, digitChar_isDigit _, digitChar_isDigit _⟩

theorem natToChars_year4 (y : Nat) (h1 : 1000 ≤ y) (h2 : y ≤ 9999) :
    ∃ c1 c2 c3 c4, natToChars y = [c1, c2, c3, c4] ∧
      isDigitChar c1 = true ∧ isDigitChar c2 = true ∧
      isDigitChar c3 = true ∧ isDigitChar c4 = true := by
  rw [natToChars_step (by omega), natToChars_step (by omega),
    natToChars_step (by omega), natToChars_small (by omega)]
  exact ⟨digitChar (y / 10 / 10 / 10), digitChar (y / 10 / 10 % 10),
    digitChar (y / 10 % 10), digitChar (y % 10), by simp, digitChar_isDigit _,
    digitChar_isDigit _, digitChar_isDigit _, digitChar_isDigit _⟩

theorem formatDMY_shape (d : PyDate) (hd1 : 1 ≤ d.day) (hd2 : d.day ≤ 31)
    (hm1 : 1 ≤ d.month) (hm2 : d.month ≤ 12) (hy1 : 1000 ≤ d.year)
    (hy2 : d.year ≤ 9999) : ddmmyyyyShape (formatDMY d) = true := by
  obtain ⟨a, b, hab, ha, hb⟩ := pad2_shape d.day (by omega)
  obtain ⟨c, c2, hcd, hc, hc2⟩ := pad2_shape d.month (by omega)
  obtain ⟨e, f, g, h, hefgh, he, hf, hg, hh⟩ := natToChars_year4 d.year hy1 hy2
  unfold formatDMY
  rw [hab, hcd, hefgh]
  simp [ddmmyyyyShape, ha, hb, hc, hc2, he, hf, hg, hh]

/-- C2: every reported record's date is its next occurrence, moved to the
following Monday (plus 7 - weekday days) exactly when that occurrence falls
on Saturday or Sunday (weekday 5 or 6, 0 = Monday), formatted DD.MM.YYYY. -/
theorem upcoming_weekend_roll (today : PyDate) (book : List (Str × Record))
    (out : List BdayEntry) (k : Str) (rec : Record) (bs : Str) (b occ : PyDate)
    (hnd : (book.map (fun p => p.2.name)).Nodup)
    (hres : getUpcomingBirthdays today book = some out)
    (hmem : (k, rec) ∈ book)
    (hbs : rec.birthday = some bs)
    (hb : strptimeDMY bs = some b)
    (hocc : nextOccurrence today b = some occ)
    (hwin : 0 ≤ dayGap today occ ∧ dayGap today occ ≤ 7) :
    ∃ e ∈ out, e.name = rec.name ∧
      e.birthday =
        formatDMY (if 5 ≤ pyWeekday occ then addDays occ (7 - pyWeekday occ) else occ) ∧
      (1000 ≤ today.year → today.year ≤ 9996 → ddmmyyyyShape e.birthday = true) := by
  obtain ⟨hiff, huniq⟩ := upcoming_helper today book out k rec hnd hres hmem
  obtain ⟨e, he, hename⟩ := hiff.mpr ⟨bs, b, occ, hbs, hb, hocc, hwin⟩
  have hpe := huniq e he hename
  have heq := processRecord_entry hpe hbs hb hocc
  subst heq
  refine ⟨_, he, hename, rfl, ?_⟩
  intro hy1 hy2
  obtain ⟨hval, hyear⟩ := nextOccurrence_shape hocc
  have hbnd : dateBounds occ := dateBounds_of_validDate occ hval
  obtain ⟨hrb, hry1, hry2⟩ := rollWeekend_bounds hbnd
  obtain ⟨hb1, hb2, hb3, hb4⟩ := hrb
  show ddmmyyyyShape (formatDMY (rollWeekend occ)) = true
  apply formatDMY_shape
  · exact hb1
  · exact le_trans hb2 (daysInMonth_le_31 _ _)
  · exact hb3
  · exact hb4
  · rcases hyear with hyo | hyo <;> omega
  · rcases hyear with hyo | hyo <;> omega

theorem upcoming_weekend_roll_witness :
    ∃ e ∈ outSat, e.name = recSat.name ∧
      e.birthday =
        formatDMY
          (if 5 ≤ pyWeekday ⟨2024, 6, 15⟩ then
            addDays ⟨2024, 6, 15⟩ (7 - pyWeekday ⟨2024, 6, 15⟩)
          else ⟨2024, 6, 15⟩) ∧
      (1000 ≤ today2024.year → today2024.year ≤ 9996 →
        ddmmyyyyShape e.birthday = true) :=
  upcoming_weekend_roll today2024 bookSat outSat nameSat recSat bdSat
    ⟨1990, 6, 15⟩ ⟨2024, 6, 15⟩ (by decide) (by decide) (by decide) (by decide)
    (by decide) (by decide) (by decide)

end AssistantBot

